import Mathlib

/-!
A verification development for the `btlescan` session manager.

The definitions below are shallow embeddings of the Rust sources:

* `src/utils.rs`    — `bytes_to_hex`, `hex_to_bytes`;
* `src/server.rs`   — the `ReadRequest` / `WriteRequest` arms of
  `handle_peripheral_event`;
* `src/app.rs`      — `insert_char_value`, `insert_char`, `delete_char`,
  `cursor_left`, `cursor_right`;
* `src/viewer.rs`   — the `DeviceData::DeviceInfo` arm of
  `process_channel_messages`.

Rust `u8` bytes are modelled as `Nat` (with explicit `< 256` bounds where
needed), `Vec<u8>` as `List Nat`, `&str` as `String` (reasoned about through
its `List Char` field), byte indices as `Nat`.  Rust operations that can
panic (byte-slicing a `&str` off a code-point boundary, `String::insert` /
`String::remove` at an invalid index) are modelled with `Option`/a dedicated
`panicked` outcome, so that a divergence between "returns an error" and
"crashes" stays observable.
-/

set_option maxRecDepth 10000

namespace Btlescan

/-- Direction tag of a log entry (`LogDirection` in `src/structs.rs`). -/
inductive LogDirection where
  | sent
  | received
  | info
  | error
deriving DecidableEq, Repr

/-- One log event sent to the app channel (`DeviceData::ServerLog`). -/
structure LogEvent where
  direction : LogDirection
  message : String
deriving DecidableEq, Repr

/-- GATT request responses used by the server (`RequestResponse`): only
`Success` and `InvalidOffset` are produced by `handle_peripheral_event`. -/
inductive RequestResponse where
  | success
  | invalidOffset
deriving DecidableEq, Repr

/-! ## Hex rendering (`bytes_to_hex`, src/utils.rs lines 47-53) -/

/-- One uppercase hexadecimal digit, as produced by Rust `format!("{b:02X}")`. -/
def hexDigitChar (n : Nat) : Char :=
  if n < 10 then Char.ofNat (48 + n) else Char.ofNat (65 + (n - 10))

/-- The two-character rendering `format!("{b:02X}")` of one byte `b < 256`. -/
def byteHexPair (b : Nat) : List Char :=
  [hexDigitChar (b / 16), hexDigitChar (b % 16)]

/-- `bytes.iter().map(|b| format!("{b:02X}")).collect::<Vec<_>>().join(" ")`:
two hex digits per byte, joined with single spaces. -/
def hexRender : List Nat → List Char
  | [] => []
  | [b] => byteHexPair b
  | b :: rest => byteHexPair b ++ ' ' :: hexRender rest

/-- `bytes_to_hex` from src/utils.rs. -/
def bytes_to_hex (bs : List Nat) : String :=
  String.mk (hexRender bs)

/-- The concatenation of the hex pairs of `bs` without separators: what
remains of `hexRender bs` after whitespace is stripped. -/
def hexPairsFlat : List Nat → List Char
  | [] => []
  | b :: rest => byteHexPair b ++ hexPairsFlat rest

/-! ## Hex parsing (`hex_to_bytes`, src/utils.rs lines 55-80) -/

/-- Rust `char::is_whitespace` (the Unicode `White_Space` property). -/
def rustIsWhitespace (c : Char) : Bool :=
  c.toNat = 0x09 ∨ c.toNat = 0x0A ∨ c.toNat = 0x0B ∨ c.toNat = 0x0C ∨
  c.toNat = 0x0D ∨ c.toNat = 0x20 ∨ c.toNat = 0x85 ∨ c.toNat = 0xA0 ∨
  c.toNat = 0x1680 ∨ (0x2000 ≤ c.toNat ∧ c.toNat ≤ 0x200A) ∨
  c.toNat = 0x2028 ∨ c.toNat = 0x2029 ∨ c.toNat = 0x202F ∨
  c.toNat = 0x205F ∨ c.toNat = 0x3000

/-- Number of bytes of the UTF-8 encoding of a code point
(Rust `char::len_utf8`). -/
def utf8Size (c : Char) : Nat :=
  if c.toNat < 0x80 then 1
  else if c.toNat < 0x800 then 2
  else if c.toNat < 0x10000 then 3
  else 4

/-- Byte length of the UTF-8 encoding of a character sequence
(Rust `str::len`). -/
def utf8Len (cs : List Char) : Nat :=
  (cs.map utf8Size).sum

/-- The UTF-8 encoding of one code point, as a list of byte values. -/
def utf8EncodeOne (c : Char) : List Nat :=
  let n := c.toNat
  if n < 0x80 then [n]
  else if n < 0x800 then [0xC0 + n / 64, 0x80 + n % 64]
  else if n < 0x10000 then
    [0xE0 + n / 4096, 0x80 + n / 64 % 64, 0x80 + n % 64]
  else
    [0xF0 + n / 262144, 0x80 + n / 4096 % 64, 0x80 + n / 64 % 64,
     0x80 + n % 64]

/-- `(c as char).to_digit(16)` for one byte `b` of the input, as used by
`u8::from_str_radix`: its value when `b` is an ASCII hex digit. -/
def hexDigitVal (b : Nat) : Option Nat :=
  if 48 ≤ b ∧ b ≤ 57 then some (b - 48)
  else if 97 ≤ b ∧ b ≤ 102 then some (b - 87)
  else if 65 ≤ b ∧ b ≤ 70 then some (b - 55)
  else none

/-- The digit-accumulation loop of `u8::from_str_radix(_, 16)`: checked
multiply-and-add over the digit bytes, overflow above `u8::MAX`. -/
def parseDigits : List Nat → Nat → Except String Nat
  | [], acc => .ok acc
  | b :: rest, acc =>
    match hexDigitVal b with
    | none => .error "invalid digit found in string"
    | some v =>
      if 255 < acc * 16 + v then .error "number too large to fit in target type"
      else parseDigits rest (acc * 16 + v)

/-- `u8::from_str_radix(src, 16)` on the bytes of `src`: an optional leading
`+` sign (byte 43) followed by at least one hex digit.  Error strings are the
`Display` renderings of the corresponding `ParseIntError`s. -/
def fromStrRadix16u8 : List Nat → Except String Nat
  | [] => .error "cannot parse integer from empty string"
  | b :: rest =>
    if b = 43 then
      match rest with
      | [] => .error "invalid digit found in string"
      | _ :: _ => parseDigits rest 0
    else parseDigits (b :: rest) 0

instance : DecidableEq (Except String Nat) := fun x y =>
  match x, y with
  | .ok a, .ok b => decidable_of_iff (a = b) (by simp)
  | .error a, .error b => decidable_of_iff (a = b) (by simp)
  | .ok _, .error _ => isFalse (by simp)
  | .error _, .ok _ => isFalse (by simp)

/-- Outcome of `hex_to_bytes`: `Ok`, `Err`, or a Rust panic (byte-slicing the
cleaned string off a code-point boundary). -/
inductive HexResult where
  | ok (bs : List Nat)
  | err (msg : String)
  | panicked
deriving DecidableEq, Repr

/-- The pair loop of `hex_to_bytes`:
`(0..cleaned.len()).step_by(2).map(|i| u8::from_str_radix(&cleaned[i..i+2], 16)
 .map_err(|e| format!("Invalid hex at position {i}: {e}"))).collect()`.

`i` is the byte position of the current pair inside `cleaned`.  The byte slice
`&cleaned[i..i+2]` is reproduced on the character list: a slice of two
one-byte characters, or both bytes of one two-byte character; an end position
falling inside a wider character is a Rust panic.  `collect::<Result<_,_>>`
stops at the first error, so later pairs are not evaluated. -/
def parseHexPairs : List Char → Nat → HexResult
  | [], _ => .ok []
  | c1 :: rest, i =>
    if utf8Size c1 = 1 then
      match rest with
      | [] => .panicked
      | c2 :: rest2 =>
        if utf8Size c2 = 1 then
          match fromStrRadix16u8 [c1.toNat, c2.toNat] with
          | .error e =>
            .err ("Invalid hex at position " ++ toString i ++ ": " ++ e)
          | .ok b =>
            match parseHexPairs rest2 (i + 2) with
            | .ok bs => .ok (b :: bs)
            | other => other
        else .panicked
    else if utf8Size c1 = 2 then
      match fromStrRadix16u8 (utf8EncodeOne c1) with
      | .error e => .err ("Invalid hex at position " ++ toString i ++ ": " ++ e)
      | .ok b =>
        match parseHexPairs rest (i + 2) with
        | .ok bs => .ok (b :: bs)
        | other => other
    else .panicked

/-- `hex_to_bytes` from src/utils.rs: strip whitespace, accept an empty
result, enforce `MAX_HEX_INPUT_LEN = 16 * 1024` bytes and even byte length,
then parse hex pairs. -/
def hex_to_bytes (s : String) : HexResult :=
  let cleaned := s.data.filter (fun c => !rustIsWhitespace c)
  if cleaned.isEmpty then .ok []
  else if 16384 < utf8Len cleaned then
    .err "Hex string exceeds maximum length of 16384 characters"
  else if utf8Len cleaned % 2 ≠ 0 then
    .err "Hex string must have even number of characters"
  else parseHexPairs cleaned 0

/-- `Err` results whose message starts with `"Invalid hex at position "`:
the position-qualified errors of the pair parser. -/
def isPositionErr : HexResult → Bool
  | .err m => "Invalid hex at position ".data.isPrefixOf m.data
  | _ => false

/-! ## Attribute server request handling
(`handle_peripheral_event`, src/server.rs lines 170-249) -/

/-- Result of handling one peripheral event: the response sent through the
responder, the value carried by a read response, the shared value buffer
afterwards, and the `ServerLog` events sent to the app channel (in order). -/
structure ServerStep where
  response : RequestResponse
  value : List Nat
  shared : List Nat
  logs : List LogEvent
deriving DecidableEq, Repr

/-- The `PeripheralEvent::ReadRequest` arm (src/server.rs lines 170-202).
`shared` is the current shared value buffer, `charUuid` the display form of
`request.characteristic`, `offset` the request offset. -/
def handleReadRequest (shared : List Nat) (charUuid : String) (offset : Nat) :
    ServerStep :=
  let full := shared
  let offsetUsize := min offset full.length
  let value := if full.length ≤ offsetUsize then [] else full.drop offsetUsize
  let hex := bytes_to_hex value
  let msg :=
    "Read request on " ++ charUuid ++ " (offset: " ++ toString offset ++
      "), responding: " ++ (if hex = "" then "(empty)" else hex)
  { response := .success
    value := value
    shared := shared
    logs := [⟨.received, msg⟩] }

/-- `MAX_CHARACTERISTIC_SIZE` (src/server.rs line 209, src/app.rs line 458);
the spec calls it `MAX_ATTRIBUTE_SIZE`. -/
def MAX_CHARACTERISTIC_SIZE : Nat := 512

/-- The `PeripheralEvent::WriteRequest` arm (src/server.rs lines 203-249).
Oversized writes answer `InvalidOffset` and return before logging; accepted
writes log the payload as hex, then replace (`offset == 0`) or zero-extend
and splice (`offset > 0`) the shared buffer.  `Nat` addition models
`usize::saturating_add`. -/
def handleWriteRequest (shared : List Nat) (charUuid : String) (offset : Nat)
    (value : List Nat) : ServerStep :=
  if MAX_CHARACTERISTIC_SIZE < offset ∨
      MAX_CHARACTERISTIC_SIZE < offset + value.length then
    { response := .invalidOffset, value := [], shared := shared, logs := [] }
  else
    let hex := bytes_to_hex value
    let msg :=
      "Write request on " ++ charUuid ++ " (offset: " ++ toString offset ++
        "): " ++ hex
    let newShared :=
      if offset = 0 then value
      else
        let e := offset + value.length
        let g :=
          if shared.length < e then shared ++ List.replicate (e - shared.length) 0
          else shared
        g.take offset ++ value ++ g.drop e
    { response := .success
      value := []
      shared := newShared
      logs := [⟨.received, msg⟩] }

/-- The buffer zero-extended to length at least `n` — the spec's description
of the pre-splice grow step for writes at positive offsets. -/
def zeroExtend (buf : List Nat) (n : Nat) : List Nat :=
  buf ++ List.replicate (n - buf.length) 0

/-! ## Characteristic value cache
(`insert_char_value`, src/app.rs lines 294-309) -/

/-- `MAX_CHAR_VALUES` (src/app.rs line 84). -/
def MAX_CHAR_VALUES : Nat := 100

/-- `char_values : HashMap<Uuid, Vec<u8>>` as an association list with unique
keys, together with `char_values_order : Vec<Uuid>`.  Uuids are modelled as
`Nat`. -/
structure CacheState where
  charValues : List (Nat × List Nat)
  order : List Nat
deriving DecidableEq, Repr

/-- `HashMap::contains_key`. -/
def mapContains (m : List (Nat × List Nat)) (k : Nat) : Bool :=
  m.any (fun p => p.1 = k)

/-- `HashMap::insert`: replace the value of an existing key, otherwise add
the binding. -/
def mapInsert (m : List (Nat × List Nat)) (k : Nat) (v : List Nat) :
    List (Nat × List Nat) :=
  if mapContains m k then m.map (fun p => if p.1 = k then (k, v) else p)
  else m ++ [(k, v)]

/-- `HashMap::remove`: drop the (unique) binding of `k`, if present. -/
def mapRemove (m : List (Nat × List Nat)) (k : Nat) : List (Nat × List Nat) :=
  m.eraseP (fun p => p.1 == k)

/-- `HashMap::get`. -/
def mapLookup (m : List (Nat × List Nat)) (k : Nat) : Option (List Nat) :=
  (m.find? (fun p => p.1 == k)).map Prod.snd

/-- The `while self.char_values.len() > MAX_CHAR_VALUES` eviction loop of
`insert_char_value`: pop the front of the order ledger and remove that key,
stopping when the bound is met or the ledger is empty. -/
def evictLoop : List (Nat × List Nat) → List Nat → List (Nat × List Nat) × List Nat
  | values, [] => (values, [])
  | values, oldest :: rest =>
    if MAX_CHAR_VALUES < values.length then evictLoop (mapRemove values oldest) rest
    else (values, oldest :: rest)

/-- `insert_char_value` (src/app.rs lines 294-309): refresh the ledger
position of an existing uuid, insert, append to the ledger, then evict
oldest entries while over `MAX_CHAR_VALUES`. -/
def insert_char_value (s : CacheState) (uuid : Nat) (value : List Nat) :
    CacheState :=
  let order1 :=
    if mapContains s.charValues uuid then s.order.filter (fun u => u ≠ uuid)
    else s.order
  let values1 := mapInsert s.charValues uuid value
  let order2 := order1 ++ [uuid]
  let r := evictLoop values1 order2
  ⟨r.1, r.2⟩

/-- Well-formedness tying `char_values` to `char_values_order`: unique keys,
unique ledger entries, and the ledger holds exactly the keys.  This holds for
every reachable state (both start empty and `insert_char_value` preserves
it). -/
def cacheWf (s : CacheState) : Prop :=
  (s.charValues.map Prod.fst).Nodup ∧ s.order.Nodup ∧
    s.charValues.map Prod.fst ⊆ s.order ∧ s.order ⊆ s.charValues.map Prod.fst

/-- The cache after inserting values for 101 distinct uuids `1..101` in
order, value `[i]` for uuid `i`, starting from the empty cache. -/
def cacheScenario : CacheState :=
  (List.range 101).foldl (fun st i => insert_char_value st (i + 1) [i + 1]) ⟨[], []⟩

/-! ## Device registry
(`DeviceData::DeviceInfo` arm of `process_channel_messages`,
src/viewer.rs lines 532-578) -/

/-- `MAX_DEVICES` (src/app.rs line 87). -/
def MAX_DEVICES : Nat := 500

/-- A discovered device: the stable id, and one field standing for the
mutable payload (`name`, `rssi`, `tx_power`, `manufacturer_data`, `services`,
`service_data`, `device` handle), which is what repeat discoveries update. -/
structure Device where
  id : Nat
  info : Nat
deriving DecidableEq, Repr

/-- The session state touched by the `DeviceInfo` arm: the device list, the
id of the connected device (if any), and the table selection. -/
structure DevState where
  devices : List Device
  connected : Option Nat
  selected : Option Nat
deriving DecidableEq, Repr

/-- `iter_mut().find(|d| d.get_id() == device.get_id())` followed by the
field updates: replace the payload of the first device with the same id. -/
def updateFirstMatch : List Device → Device → List Device
  | [], _ => []
  | x :: rest, d =>
    if x.id = d.id then ⟨x.id, d.info⟩ :: rest
    else x :: updateFirstMatch rest d

/-- The indices the eviction pass removes: the first `excess` positions,
skipping any position holding the connected device. -/
def evictIdxs (devices1 : List Device) (connected : Option Nat)
    (excess : Nat) : List Nat :=
  (List.range excess).filter (fun i =>
    match connected with
    | none => true
    | some cid =>
      match devices1[i]? with
      | some x => x.id ≠ cid
      | none => true)

/-- The body of the `DeviceData::DeviceInfo` arm (src/viewer.rs lines
533-575): merge a repeat discovery in place; otherwise push, and when over
`MAX_DEVICES` remove the oldest `excess` entries except the connected
device, adjusting the selection. -/
def applyDiscoveryMain (s : DevState) (d : Device) : DevState :=
  if s.devices.any (fun x => x.id = d.id) then
    { s with devices := updateFirstMatch s.devices d }
  else
    let devices1 := s.devices ++ [d]
    if MAX_DEVICES < devices1.length then
      let excess := devices1.length - MAX_DEVICES
      let idxs := evictIdxs devices1 s.connected excess
      let removedBeforeSelected :=
        (idxs.filter (fun i => i < s.selected.getD 0)).length
      let devices2 := idxs.reverse.foldl (fun acc i => acc.eraseIdx i) devices1
      let newSelected :=
        min (s.selected.getD 0 - removedBeforeSelected)
          (devices2.length - 1)
      { devices := devices2
        connected := s.connected
        selected := if devices2.isEmpty then none else some newSelected }
    else { s with devices := devices1 }

/-- The full `DeviceData::DeviceInfo` arm (src/viewer.rs lines 532-578): the
main body followed by the trailing default of the selection to 0 when it is
unset and devices exist (lines 576-578). -/
def applyDiscovery (s : DevState) (d : Device) : DevState :=
  if (applyDiscoveryMain s d).selected = none ∧
      ¬(applyDiscoveryMain s d).devices.isEmpty then
    { applyDiscoveryMain s d with selected := some 0 }
  else applyDiscoveryMain s d

/-- Ids of the registered devices. -/
def deviceIds (s : DevState) : List Nat :=
  s.devices.map Device.id

/-- Well-formedness of the registry: ids are unique, and the count respects
`MAX_DEVICES`, with one extra slot admissible only while a device is
connected (the eviction pass skips the connected device). -/
def devWf (s : DevState) : Prop :=
  (deviceIds s).Nodup ∧
    s.devices.length ≤
      (match s.connected with
       | none => MAX_DEVICES
       | some _ => MAX_DEVICES + 1)

/-- A full registry (500 devices with ids `0..499`), connected to the device
at index 0, about to receive one more discovery. -/
def devCexState : DevState :=
  ⟨(List.range 500).map (fun i => ⟨i, 0⟩), some 0, some 0⟩

/-! ## Input buffer (`insert_char`, `delete_char`, `cursor_left`,
`cursor_right`, src/app.rs lines 533-572) -/

/-- `MAX_INPUT_LEN` (src/app.rs line 90). -/
def MAX_INPUT_LEN : Nat := 16384

/-- `input_buffer : String` with `cursor_position : usize` (a byte index). -/
structure InputState where
  buffer : List Char
  cursor : Nat
deriving DecidableEq, Repr

/-- Split a character sequence at byte index `i`: the characters before and
from byte `i`, and whether `i` is a code-point boundary.  Byte-index string
operations (`&s[..i]`, `&s[i..]`, `String::insert`, `String::remove`) panic
in Rust when the index is not a boundary; callers map `false` to a panic. -/
def splitAtByte (cs : List Char) (i : Nat) : List Char × List Char × Bool :=
  if i = 0 then ([], cs, true)
  else
    match cs with
    | [] => ([], [], false)
    | c :: rest =>
      if i < utf8Size c then ([], cs, false)
      else
        let r := splitAtByte rest (i - utf8Size c)
        (c :: r.1, r.2.1, r.2.2)

/-- `self.input_buffer[..self.cursor_position].chars().last()
    .map_or(0, char::len_utf8)`. -/
def lastCharSize (pre : List Char) : Nat :=
  ((pre.getLast?).map utf8Size).getD 0

/-- `String::remove(i)`: drop the character starting at byte `i`; `none` is
the Rust panic (out of range or not a boundary). -/
def removeAtByte (cs : List Char) (i : Nat) : Option (List Char) :=
  match splitAtByte cs i with
  | (pre, _ :: suf, true) => some (pre ++ suf)
  | _ => none

/-- `insert_char` (src/app.rs lines 533-539): reject when the byte length
has reached `MAX_INPUT_LEN`, otherwise insert at the cursor byte index and
advance the cursor by the character's UTF-8 width. -/
def insertChar (c : Char) (s : InputState) : Option InputState :=
  if MAX_INPUT_LEN ≤ utf8Len s.buffer then some s
  else
    match splitAtByte s.buffer s.cursor with
    | (pre, suf, true) => some ⟨pre ++ c :: suf, s.cursor + utf8Size c⟩
    | _ => none

/-- `delete_char` (src/app.rs lines 541-550). -/
def deleteChar (s : InputState) : Option InputState :=
  if s.cursor = 0 then some s
  else
    match splitAtByte s.buffer s.cursor with
    | (pre, _, true) =>
      let cursor1 := s.cursor - lastCharSize pre
      (removeAtByte s.buffer cursor1).map (fun b => ⟨b, cursor1⟩)
    | _ => none

/-- `cursor_left` (src/app.rs lines 552-561). -/
def cursorLeft (s : InputState) : Option InputState :=
  if s.cursor = 0 then some s
  else
    match splitAtByte s.buffer s.cursor with
    | (pre, _, true) => some ⟨s.buffer, s.cursor - lastCharSize pre⟩
    | _ => none

/-- `cursor_right` (src/app.rs lines 563-572): `map_or(1, len_utf8)` on the
first character at or after the cursor. -/
def cursorRight (s : InputState) : Option InputState :=
  if s.cursor < utf8Len s.buffer then
    match splitAtByte s.buffer s.cursor with
    | (_, c :: _, true) => some ⟨s.buffer, s.cursor + utf8Size c⟩
    | (_, [], true) => some ⟨s.buffer, s.cursor + 1⟩
    | _ => none
  else some s

/-- One input operation. -/
inductive InputOp where
  | ins (c : Char)
  | del
  | left
  | right
deriving DecidableEq, Repr

/-- Apply one input operation. -/
def applyOp : InputOp → InputState → Option InputState
  | .ins c, s => insertChar c s
  | .del, s => deleteChar s
  | .left, s => cursorLeft s
  | .right, s => cursorRight s

/-- Apply a sequence of input operations, propagating panics. -/
def applyOps : List InputOp → InputState → Option InputState
  | [], s => some s
  | op :: rest, s => (applyOp op s).bind (applyOps rest)

/-- The empty input state. -/
def initInput : InputState := ⟨[], 0⟩

/-- The cursor invariant: the cursor byte index is the byte length of a
character-aligned decomposition of the buffer. -/
def inputInv (s : InputState) : Prop :=
  ∃ pre suf, s.buffer = pre ++ suf ∧ s.cursor = utf8Len pre

/-- 16383 one-byte insertions followed by one three-byte insertion: the
sequence driving the buffer past `MAX_INPUT_LEN` bytes. -/
def overfillOps : List InputOp :=
  List.replicate 16383 (InputOp.ins 'a') ++ [InputOp.ins '€']

/-- The buffer `overfillOps` produces. -/
def overfillBuf : List Char :=
  List.replicate 16383 'a' ++ ['€']

/-! # Helper lemmas: hex rendering and parsing -/

/-- For a genuine byte, the rendered pair consists of two one-byte
non-whitespace characters and parses back to the byte. -/
theorem byteHexPair_facts : ∀ b < 256,
    ((byteHexPair b).filter (fun c => !rustIsWhitespace c) = byteHexPair b) ∧
    utf8Len (byteHexPair b) = 2 ∧
    (∀ c ∈ byteHexPair b, utf8Size c = 1) ∧
    fromStrRadix16u8 ((byteHexPair b).map Char.toNat) = .ok b := by
  decide

/-- Stripping whitespace from the rendering leaves the bare hex pairs. -/
theorem hexRender_filter : ∀ bs : List Nat, (∀ b ∈ bs, b < 256) →
    (hexRender bs).filter (fun c => !rustIsWhitespace c) = hexPairsFlat bs := by
  intro bs
  induction bs with
  | nil => intro _; rfl
  | cons b rest ih =>
    intro h
    have hb := (byteHexPair_facts b (h b (List.mem_cons_self b rest))).1
    match rest with
    | [] =>
      show (hexRender [b]).filter _ = _
      simpa [hexRender, hexPairsFlat] using hb
    | c :: rest2 =>
      have ih2 := ih (fun x hx => h x (List.mem_cons_of_mem b hx))
      show (byteHexPair b ++ ' ' :: hexRender (c :: rest2)).filter _ = _
      simp only [List.filter_append, hb, hexPairsFlat]
      simp only [List.filter_cons]
      have hsp : (!rustIsWhitespace ' ') = false := by decide
      rw [hsp]
      simp [ih2, hexPairsFlat]

/-- Byte length of the stripped rendering: two bytes per rendered byte. -/
theorem utf8Len_hexPairsFlat : ∀ bs : List Nat, (∀ b ∈ bs, b < 256) →
    utf8Len (hexPairsFlat bs) = 2 * bs.length := by
  intro bs
  induction bs with
  | nil => intro _; rfl
  | cons b rest ih =>
    intro h
    have hb := (byteHexPair_facts b (h b (List.mem_cons_self b rest))).2.1
    have ih2 := ih (fun x hx => h x (List.mem_cons_of_mem b hx))
    show utf8Len (byteHexPair b ++ hexPairsFlat rest) = _
    simp only [utf8Len, List.map_append, List.sum_append] at *
    rw [hb, ih2]
    simp [List.length_cons]
    ring

/-- The pair parser inverts the rendering, at every starting position. -/
theorem parseHexPairs_hexPairsFlat : ∀ bs : List Nat, (∀ b ∈ bs, b < 256) →
    ∀ i, parseHexPairs (hexPairsFlat bs) i = .ok bs := by
  intro bs
  induction bs with
  | nil => intro _ i; rfl
  | cons b rest ih =>
    intro h i
    have hblt := h b (List.mem_cons_self b rest)
    have hsz := (byteHexPair_facts b hblt).2.2.1
    have hparse := (byteHexPair_facts b hblt).2.2.2
    have ih2 := ih (fun x hx => h x (List.mem_cons_of_mem b hx)) (i + 2)
    have h1 : utf8Size (hexDigitChar (b / 16)) = 1 :=
      hsz _ (List.mem_cons_self _ _)
    have h2 : utf8Size (hexDigitChar (b % 16)) = 1 :=
      hsz _ (List.mem_cons_of_mem _ (List.mem_cons_self _ _))
    simp only [byteHexPair, List.map_cons, List.map_nil] at hparse
    show parseHexPairs
        (hexDigitChar (b / 16) :: hexDigitChar (b % 16) :: hexPairsFlat rest) i =
      HexResult.ok (b :: rest)
    simp only [parseHexPairs, h1, h2, if_pos, hparse, ih2]

/-- A claim-level prefix test: a message built by appending onto the
position-qualified error header passes `isPositionErr`. -/
theorem isPrefixOf_append_self : ∀ l r : List Char, l.isPrefixOf (l ++ r) = true := by
  intro l r
  induction l with
  | nil => simp [List.isPrefixOf]
  | cons c t ih => simp [List.isPrefixOf, ih]

/-- Every error produced by the pair parser is position-qualified
(auxiliary, strong induction on the length of the character list). -/
theorem parseHexPairs_err_form_aux : ∀ (n : Nat) (cs : List Char),
    cs.length ≤ n → ∀ (i : Nat) (m : String),
    parseHexPairs cs i = .err m → isPositionErr (.err m) = true := by
  intro n
  induction n with
  | zero =>
    intro cs hcs i m h
    have : cs = [] := List.length_eq_zero.mp (Nat.le_zero.mp hcs)
    subst this
    exact absurd h (by simp [parseHexPairs])
  | succ n ih =>
    intro cs hcs i m h
    match cs with
    | [] => exact absurd h (by simp [parseHexPairs])
    | c1 :: rest =>
      by_cases h1 : utf8Size c1 = 1
      · match rest with
        | [] => simp [parseHexPairs, h1] at h
        | c2 :: rest2 =>
          by_cases h2 : utf8Size c2 = 1
          · simp only [parseHexPairs, h1, h2, if_pos] at h
            rcases hfsr : fromStrRadix16u8 [c1.toNat, c2.toNat] with e | v
            · simp only [hfsr] at h
              cases h
              show ("Invalid hex at position ".data.isPrefixOf _) = true
              rw [show ("Invalid hex at position " ++ toString i ++ ": " ++ e).data =
                "Invalid hex at position ".data ++
                  ((toString i).data ++ ": ".data ++ e.data) by
                simp [String.data_append]]
              exact isPrefixOf_append_self _ _
            · simp only [hfsr] at h
              cases hrec : parseHexPairs rest2 (i + 2) with
              | ok bs => rw [hrec] at h; exact absurd h (by simp)
              | err m2 =>
                rw [hrec] at h
                cases h
                refine ih rest2 ?_ (i + 2) _ hrec
                simp only [List.length_cons] at hcs
                omega
              | panicked => rw [hrec] at h; exact absurd h (by simp)
          · simp [parseHexPairs, h1, h2] at h
      · by_cases h1' : utf8Size c1 = 2
        · rw [parseHexPairs.eq_def] at h
          simp only [h1, h1', if_neg, if_pos, if_false] at h
          rcases hfsr : fromStrRadix16u8 (utf8EncodeOne c1) with e | v
          · simp only [hfsr] at h
            cases h
            show ("Invalid hex at position ".data.isPrefixOf _) = true
            rw [show ("Invalid hex at position " ++ toString i ++ ": " ++ e).data =
              "Invalid hex at position ".data ++
                ((toString i).data ++ ": ".data ++ e.data) by
              simp [String.data_append]]
            exact isPrefixOf_append_self _ _
          · simp only [hfsr] at h
            cases hrec : parseHexPairs rest (i + 2) with
            | ok bs => rw [hrec] at h; exact absurd h (by simp)
            | err m2 =>
              rw [hrec] at h
              cases h
              refine ih rest ?_ (i + 2) _ hrec
              simp only [List.length_cons] at hcs
              omega
            | panicked => rw [hrec] at h; exact absurd h (by simp)
        · rw [parseHexPairs.eq_def] at h
          simp [h1, h1'] at h

/-- Every error produced by the pair parser is position-qualified. -/
theorem parseHexPairs_err_form (cs : List Char) (i : Nat) (m : String)
    (h : parseHexPairs cs i = .err m) : isPositionErr (.err m) = true :=
  parseHexPairs_err_form_aux cs.length cs le_rfl i m h

/-- A successful two-byte parse means both bytes were digits, except that
the first may be the `+` sign. -/
theorem fromStrRadix_ok_digits : ∀ a b v : Nat,
    fromStrRadix16u8 [a, b] = .ok v →
    (hexDigitVal a ≠ none ∨ a = 43) ∧ hexDigitVal b ≠ none := by
  intro a b v h
  by_cases ha : a = 43
  · subst ha
    refine ⟨Or.inr rfl, ?_⟩
    simp only [fromStrRadix16u8, if_pos] at h
    rcases hb : hexDigitVal b with _ | d
    · simp [parseDigits, hb] at h
    · simp [hb]
  · simp only [fromStrRadix16u8, ha, if_false, if_neg, not_false_iff] at h
    rcases hda : hexDigitVal a with _ | d
    · simp [parseDigits, hda] at h
    · refine ⟨Or.inl (by simp [hda]), ?_⟩
      rcases hdb : hexDigitVal b with _ | d2
      · simp only [parseDigits, hda, hdb] at h
        split at h <;> simp_all
      · simp [hdb]

/-- Characters with a given code point are that character. -/
theorem char_eq_of_toNat (c : Char) (n : Nat) (d : Char) (hd : d.toNat = n)
    (h : c.toNat = n) : c = d := by
  have h1 := Char.ofNat_toNat c
  have h2 := Char.ofNat_toNat d
  rw [h] at h1
  rw [hd] at h2
  rw [← h1, ← h2]

/-- ASCII characters occupy one UTF-8 byte. -/
theorem utf8Size_of_ascii (c : Char) (h : c.toNat < 128) : utf8Size c = 1 := by
  simp [utf8Size, h]

/-- On all-ASCII text the byte length is the character count. -/
theorem utf8Len_ascii : ∀ cs : List Char, (∀ c ∈ cs, utf8Size c = 1) →
    utf8Len cs = cs.length := by
  intro cs
  induction cs with
  | nil => intro _; rfl
  | cons c rest ih =>
    intro h
    have hc := h c (List.mem_cons_self c rest)
    have := ih (fun x hx => h x (List.mem_cons_of_mem c hx))
    simp [utf8Len, List.map_cons, hc] at *
    omega

/-- The position-qualified error messages pass `isPositionErr`. -/
theorem isPositionErr_mk (i : Nat) (e : String) :
    isPositionErr (.err ("Invalid hex at position " ++ toString i ++ ": " ++ e)) =
      true := by
  show ("Invalid hex at position ".data.isPrefixOf _) = true
  rw [show ("Invalid hex at position " ++ toString i ++ ": " ++ e).data =
    "Invalid hex at position ".data ++
      ((toString i).data ++ ": ".data ++ e.data) by
    simp [String.data_append]]
  exact isPrefixOf_append_self _ _

/-- On even-length ASCII input containing a character that is neither a hex
digit nor `+`, the pair parser reports a position-qualified error. -/
theorem parseHexPairs_bad_char : ∀ (n : Nat) (cs : List Char),
    cs.length ≤ n → (∀ c ∈ cs, utf8Size c = 1) → cs.length % 2 = 0 →
    (∃ c ∈ cs, hexDigitVal c.toNat = none ∧ c ≠ '+') →
    ∀ i, isPositionErr (parseHexPairs cs i) = true := by
  intro n
  induction n with
  | zero =>
    intro cs hlen _ _ hbad i
    have : cs = [] := List.length_eq_zero.mp (Nat.le_zero.mp hlen)
    subst this
    simp at hbad
  | succ n ih =>
    intro cs hlen hascii heven hbad i
    match cs with
    | [] => simp at hbad
    | [c1] => simp at heven
    | c1 :: c2 :: rest2 =>
      have h1 : utf8Size c1 = 1 := hascii c1 (by simp)
      have h2 : utf8Size c2 = 1 := hascii c2 (by simp)
      simp only [parseHexPairs, h1, h2, if_pos]
      rcases hfsr : fromStrRadix16u8 [c1.toNat, c2.toNat] with e | v
      · exact isPositionErr_mk i e
      · have hdig := fromStrRadix_ok_digits c1.toNat c2.toNat v hfsr
        have hbad2 : ∃ c ∈ rest2, hexDigitVal c.toNat = none ∧ c ≠ '+' := by
          rcases hbad with ⟨c, hc, hcnone, hcplus⟩
          rcases List.mem_cons.mp hc with rfl | hc'
          · rcases hdig.1 with hd | hd
            · exact absurd hcnone hd
            · exact absurd (char_eq_of_toNat c 43 '+' rfl hd) hcplus
          · rcases List.mem_cons.mp hc' with rfl | hc''
            · exact absurd hcnone hdig.2
            · exact ⟨c, hc'', hcnone, hcplus⟩
        have hrec := ih rest2 (by simp at hlen; omega)
          (fun x hx => hascii x (by simp [hx])) (by simp at heven ⊢; omega)
          hbad2 (i + 2)
        cases hr : parseHexPairs rest2 (i + 2) with
        | ok bs => rw [hr] at hrec; simp [isPositionErr] at hrec
        | err m2 => rw [hr] at hrec; exact hrec
        | panicked => rw [hr] at hrec; simp [isPositionErr] at hrec

/-- A character list of nonzero byte length is nonempty. -/
theorem isEmpty_false_of_utf8Len_ne (l : List Char) (h : utf8Len l ≠ 0) :
    l.isEmpty = false := by
  cases l with
  | nil => simp [utf8Len] at h
  | cons c t => rfl

/-! # C6: hex round-trip -/

/-- C6 (counterexample): the round-trip `hex_to_bytes (bytes_to_hex b) = Ok b`
fails for `b` of 8193 bytes — the rendering strips to 16386 hex digits, over
the `MAX_HEX_INPUT_LEN = 16384` cap, so parsing returns the length error. -/
theorem C6_counterexample :
    hex_to_bytes (bytes_to_hex (List.replicate 8193 0)) ≠
      HexResult.ok (List.replicate 8193 0) := by
  have hb : ∀ b ∈ List.replicate 8193 (0 : Nat), b < 256 := by
    intro b hbmem
    rw [List.eq_of_mem_replicate hbmem]
    norm_num
  have hfil := hexRender_filter (List.replicate 8193 0) hb
  have hlen := utf8Len_hexPairsFlat (List.replicate 8193 0) hb
  rw [List.length_replicate] at hlen
  have hdata : (bytes_to_hex (List.replicate 8193 0)).data =
      hexRender (List.replicate 8193 0) := rfl
  have hne : (hexPairsFlat (List.replicate 8193 0)).isEmpty = false :=
    isEmpty_false_of_utf8Len_ne _ (by omega)
  have h1 : hex_to_bytes (bytes_to_hex (List.replicate 8193 0)) =
      .err "Hex string exceeds maximum length of 16384 characters" := by
    rw [hex_to_bytes.eq_def]
    rw [hdata, hfil]
    rw [if_neg (by rw [hne]; exact Bool.false_ne_true)]
    rw [if_pos (by omega)]
  rw [h1]
  exact fun h => HexResult.noConfusion h

/-- C6 (amended): for every byte sequence `b` of at most 8192 bytes,
`hex_to_bytes (bytes_to_hex b) = Ok b`; longer sequences render to more than
`MAX_HEX_INPUT_LEN` hex digits and are rejected by the length cap. -/
theorem C6_hex_roundtrip (bs : List Nat) (hb : ∀ b ∈ bs, b < 256)
    (hlen : bs.length ≤ 8192) :
    hex_to_bytes (bytes_to_hex bs) = HexResult.ok bs := by
  have hfil := hexRender_filter bs hb
  have hl := utf8Len_hexPairsFlat bs hb
  have hdata : (bytes_to_hex bs).data = hexRender bs := rfl
  match bs with
  | [] => rfl
  | b :: rest =>
    have hne : (hexPairsFlat (b :: rest)).isEmpty = false :=
      isEmpty_false_of_utf8Len_ne _ (by rw [hl]; simp)
    have hcap : ¬ 16384 < utf8Len (hexPairsFlat (b :: rest)) := by
      rw [hl]
      omega
    have hpar : utf8Len (hexPairsFlat (b :: rest)) % 2 = 0 := by
      rw [hl]
      omega
    simp only [hex_to_bytes, hdata, hfil, hne, Bool.false_eq_true, if_false,
      if_neg hcap, hpar, if_neg (by omega : ¬ (0 : Nat) ≠ 0)]
    exact parseHexPairs_hexPairsFlat (b :: rest) hb 0

/-- C6 (witness): the round-trip at the concrete bytes `[0xDE, 0xAD]`. -/
theorem C6_witness :
    hex_to_bytes (bytes_to_hex [222, 173]) = HexResult.ok [222, 173] :=
  C6_hex_roundtrip [222, 173] (by decide) (by decide)

/-! # C7: hex parsing failure modes -/

/-- C7 (counterexample): `"+1"` contains the non-hex-digit, non-whitespace
character `+`, yet `hex_to_bytes` accepts it (Rust's `u8::from_str_radix`
allows a leading plus sign), returning `Ok [1]` instead of failing. -/
theorem C7_counterexample :
    rustIsWhitespace '+' = false ∧ hexDigitVal '+'.toNat = none ∧
      hex_to_bytes (String.mk ['+', '1']) = HexResult.ok [1] := by
  decide

/-- C7 (amended): parsing fails on every input whose non-whitespace portion
has odd byte length — with one of the two fixed, position-free messages (the
length cap or the even-length requirement) — and fails with an error
qualified by the byte position of the offending pair for every ASCII input
(within the length cap, of even cleaned length) containing a non-whitespace
character that is neither a hex digit nor a `+` sign. -/
theorem C7_hex_errors :
    (∀ s : String,
      utf8Len (s.data.filter (fun c => !rustIsWhitespace c)) % 2 = 1 →
      hex_to_bytes s = .err "Hex string exceeds maximum length of 16384 characters" ∨
      hex_to_bytes s = .err "Hex string must have even number of characters") ∧
    (∀ s : String, (∀ c ∈ s.data, c.toNat < 128) →
      utf8Len (s.data.filter (fun c => !rustIsWhitespace c)) ≤ 16384 →
      utf8Len (s.data.filter (fun c => !rustIsWhitespace c)) % 2 = 0 →
      (∃ c ∈ s.data, rustIsWhitespace c = false ∧ hexDigitVal c.toNat = none ∧
        c ≠ '+') →
      isPositionErr (hex_to_bytes s) = true) := by
  constructor
  · intro s hodd
    have hne : (s.data.filter (fun c => !rustIsWhitespace c)).isEmpty = false := by
      rcases he : s.data.filter (fun c => !rustIsWhitespace c) with _ | ⟨c, t⟩
      · rw [he] at hodd
        simp [utf8Len] at hodd
      · rfl
    by_cases hcap : 16384 < utf8Len (s.data.filter (fun c => !rustIsWhitespace c))
    · left
      simp only [hex_to_bytes, hne, Bool.false_eq_true, if_false, if_pos hcap]
    · right
      simp only [hex_to_bytes, hne, Bool.false_eq_true, if_false, if_neg hcap,
        if_pos (by omega : utf8Len (s.data.filter (fun c => !rustIsWhitespace c)) % 2 ≠ 0)]
  · intro s hascii hcap heven hbad
    rcases hbad with ⟨c, hc, hcws, hcnone, hcplus⟩
    have hcmem : c ∈ s.data.filter (fun c => !rustIsWhitespace c) :=
      List.mem_filter.mpr ⟨hc, by simp [hcws]⟩
    have hne : (s.data.filter (fun c => !rustIsWhitespace c)).isEmpty = false := by
      rcases he : s.data.filter (fun c => !rustIsWhitespace c) with _ | ⟨x, t⟩
      · rw [he] at hcmem
        simp at hcmem
      · rfl
    have hsz : ∀ x ∈ s.data.filter (fun c => !rustIsWhitespace c), utf8Size x = 1 :=
      fun x hx => utf8Size_of_ascii x (hascii x (List.mem_of_mem_filter hx))
    have hcl := utf8Len_ascii _ hsz
    simp only [hex_to_bytes, hne, Bool.false_eq_true, if_false, if_neg (by omega :
        ¬ 16384 < utf8Len (s.data.filter (fun c => !rustIsWhitespace c))),
      if_neg (by omega :
        ¬ utf8Len (s.data.filter (fun c => !rustIsWhitespace c)) % 2 ≠ 0)]
    exact parseHexPairs_bad_char
      (s.data.filter (fun c => !rustIsWhitespace c)).length _ le_rfl hsz
      (by omega) ⟨c, hcmem, hcnone, hcplus⟩ 0

/-- C7 (witness): the theorem applied at the odd-length input `"A"` and at
`"GG"`, whose `G` is neither whitespace, a hex digit, nor `+`. -/
theorem C7_witness :
    (hex_to_bytes (String.mk ['A']) =
        .err "Hex string exceeds maximum length of 16384 characters" ∨
      hex_to_bytes (String.mk ['A']) =
        .err "Hex string must have even number of characters") ∧
      isPositionErr (hex_to_bytes (String.mk ['G', 'G'])) = true :=
  ⟨C7_hex_errors.1 (String.mk ['A']) (by decide),
   C7_hex_errors.2 (String.mk ['G', 'G']) (by decide) (by decide) (by decide)
     ⟨'G', by decide, by decide, by decide, by decide⟩⟩

/-! # C10: whitespace-only input -/

/-- C10: hex parsing of the empty string or of any all-whitespace string
succeeds with the empty byte sequence. -/
theorem C10_whitespace_ok (s : String)
    (h : ∀ c ∈ s.data, rustIsWhitespace c = true) :
    hex_to_bytes s = HexResult.ok [] := by
  have hnil : s.data.filter (fun c => !rustIsWhitespace c) = [] :=
    List.filter_eq_nil_iff.mpr (by intro a ha; simp [h a ha])
  simp only [hex_to_bytes, hnil]
  rfl

/-- C10 (witness): the theorem applied to the two-blank string. -/
theorem C10_witness : hex_to_bytes (String.mk [' ', ' ']) = HexResult.ok [] :=
  C10_whitespace_ok (String.mk [' ', ' ']) (by decide)

/-! # C1: write rejection semantics -/

/-- C1: a peer write is answered with the distinct `InvalidOffset` response
(not a generic error) exactly when `o > 512` or `o + len(p) > 512`, and such
a rejection leaves the shared value buffer completely unchanged. -/
theorem C1_write_reject (shared : List Nat) (u : String) (o : Nat)
    (p : List Nat) :
    ((handleWriteRequest shared u o p).response = .invalidOffset ↔
      (512 < o ∨ 512 < o + p.length)) ∧
    ((512 < o ∨ 512 < o + p.length) →
      (handleWriteRequest shared u o p).shared = shared) := by
  have hcond : (MAX_CHARACTERISTIC_SIZE < o ∨
      MAX_CHARACTERISTIC_SIZE < o + p.length) ↔
      (512 < o ∨ 512 < o + p.length) := by
    simp [MAX_CHARACTERISTIC_SIZE]
  by_cases hc : 512 < o ∨ 512 < o + p.length
  · refine ⟨⟨fun _ => hc, fun _ => ?_⟩, fun _ => ?_⟩ <;>
      simp only [handleWriteRequest, if_pos (hcond.mpr hc)]
  · refine ⟨⟨fun hresp => ?_, fun h => absurd h hc⟩, fun h => absurd h hc⟩
    have hsucc : (handleWriteRequest shared u o p).response = .success := by
      simp only [handleWriteRequest, if_neg (fun h => hc (hcond.mp h))]
    rw [hsucc] at hresp
    exact RequestResponse.noConfusion hresp

/-- C1 (witness): the scenario of the claim — a write at offset 513 against
an empty buffer is rejected and the buffer length stays 0. -/
theorem C1_witness :
    (handleWriteRequest [] "c" 513 [1]).response = .invalidOffset ∧
      (handleWriteRequest [] "c" 513 [1]).shared.length = 0 :=
  ⟨(C1_write_reject [] "c" 513 [1]).1.mpr (by decide),
   by rw [(C1_write_reject [] "c" 513 [1]).2 (by decide)]; rfl⟩

/-! # C3: read semantics -/

/-- C3: a peer read always answers with a success response; the carried
value is empty when `o ≥ len(buffer)` and is `buffer[o..]` otherwise; the
stored buffer is unchanged. -/
theorem C3_read (shared : List Nat) (u : String) (o : Nat) :
    (handleReadRequest shared u o).response = .success ∧
    (shared.length ≤ o → (handleReadRequest shared u o).value = []) ∧
    (o < shared.length → (handleReadRequest shared u o).value = shared.drop o) ∧
    (handleReadRequest shared u o).shared = shared := by
  refine ⟨rfl, ?_, ?_, rfl⟩
  · intro h
    show (if shared.length ≤ min o shared.length then []
      else shared.drop (min o shared.length)) = []
    rw [if_pos (by omega)]
  · intro h
    show (if shared.length ≤ min o shared.length then []
      else shared.drop (min o shared.length)) = shared.drop o
    rw [if_neg (by omega), Nat.min_eq_left (by omega)]

/-- C3 (witness): the theorem applied with an in-range and an out-of-range
offset against the buffer `[1, 2, 3]`. -/
theorem C3_witness :
    (handleReadRequest [1, 2, 3] "c" 1).value = [2, 3] ∧
      (handleReadRequest [1, 2, 3] "c" 7).value = [] :=
  ⟨by rw [(C3_read [1, 2, 3] "c" 1).2.2.1 (by decide)]; rfl,
   (C3_read [1, 2, 3] "c" 7).2.1 (by decide)⟩

/-! # C2: accepted write semantics -/

/-- The `if end > guard.len() { guard.resize(end, 0) }` step equals the
zero-extension. -/
theorem resize_eq_zeroExtend (buf : List Nat) (e : Nat) :
    (if buf.length < e then buf ++ List.replicate (e - buf.length) 0 else buf) =
      zeroExtend buf e := by
  by_cases h : buf.length < e
  · rw [if_pos h]; rfl
  · rw [if_neg h]
    simp only [zeroExtend, show e - buf.length = 0 by omega, List.replicate_zero,
      List.append_nil]

/-- Length of the zero-extension. -/
theorem zeroExtend_length (buf : List Nat) (e : Nat) :
    (zeroExtend buf e).length = max e buf.length := by
  simp [zeroExtend]
  omega

/-- C2: an accepted write (`o + len(p) ≤ 512`) succeeds; at offset 0 the
buffer becomes exactly `p` (full overwrite); at `o > 0` the buffer is first
zero-extended so its length is at least `o + len(p)`, then `p` replaces
positions `o .. o + len(p)`, and every byte outside that range keeps the
value it had after the extension. -/
theorem C2_write_accept (shared : List Nat) (u : String) (o : Nat)
    (p : List Nat) (hacc : o + p.length ≤ 512) :
    (handleWriteRequest shared u o p).response = .success ∧
    (o = 0 → (handleWriteRequest shared u o p).shared = p) ∧
    (0 < o →
      (handleWriteRequest shared u o p).shared.length =
        max (o + p.length) shared.length ∧
      (∀ j, j < p.length →
        (handleWriteRequest shared u o p).shared[o + j]? = p[j]?) ∧
      (∀ i, i < o ∨ o + p.length ≤ i →
        (handleWriteRequest shared u o p).shared[i]? =
          (zeroExtend shared (o + p.length))[i]?)) := by
  have hcnot : ¬ (MAX_CHARACTERISTIC_SIZE < o ∨
      MAX_CHARACTERISTIC_SIZE < o + p.length) := by
    simp only [MAX_CHARACTERISTIC_SIZE]
    omega
  refine ⟨by simp only [handleWriteRequest, if_neg hcnot], ?_, ?_⟩
  · intro h0
    simp only [handleWriteRequest, if_neg hcnot, if_pos h0]
  · intro hpos
    have hsh : (handleWriteRequest shared u o p).shared =
        (zeroExtend shared (o + p.length)).take o ++ p ++
          (zeroExtend shared (o + p.length)).drop (o + p.length) := by
      simp only [handleWriteRequest, if_neg hcnot,
        if_neg (by omega : ¬ o = 0), resize_eq_zeroExtend]
    have hglen : (zeroExtend shared (o + p.length)).length =
        max (o + p.length) shared.length := zeroExtend_length _ _
    have hole : o ≤ (zeroExtend shared (o + p.length)).length := by omega
    have htk : ((zeroExtend shared (o + p.length)).take o).length = o :=
      List.length_take_of_le hole
    refine ⟨?_, ?_, ?_⟩
    · rw [hsh]
      simp only [List.length_append, htk, List.length_drop]
      omega
    · intro j hj
      rw [hsh, List.append_assoc,
        List.getElem?_append_right (by omega : ((zeroExtend shared
          (o + p.length)).take o).length ≤ o + j), htk]
      rw [List.getElem?_append, if_pos (by omega : o + j - o < p.length)]
      congr 1
      omega
    · intro i hi
      rcases hi with hi | hi
      · rw [hsh, List.append_assoc,
          List.getElem?_append, if_pos (by rw [htk]; omega)]
        rw [List.getElem?_take, if_pos (by omega : i < o)]
      · rw [hsh, List.append_assoc,
          List.getElem?_append_right (by rw [htk]; omega), htk]
        rw [List.getElem?_append_right (by omega : p.length ≤ i - o)]
        rw [List.getElem?_drop]
        congr 1
        omega

/-- C2 (witness): the theorem applied at a shrinking offset-0 write and at a
grow-and-splice write at offset 2 against the buffer `[1, 2, 3]`. -/
theorem C2_witness :
    (handleWriteRequest [1, 2, 3] "c" 0 [7]).shared = [7] ∧
      (handleWriteRequest [1, 2, 3] "c" 2 [9, 9]).shared.length =
        max (2 + 2) 3 :=
  ⟨(C2_write_accept [1, 2, 3] "c" 0 [7] (by decide)).2.1 rfl,
   ((C2_write_accept [1, 2, 3] "c" 2 [9, 9] (by decide)).2.2 (by omega)).1⟩

/-! # C9: request logging -/

/-- C9 (counterexample): a rejected write (offset 513) answers
`InvalidOffset` and emits no log event at all, contradicting "every
peer-initiated read or write request ... emits exactly one log event". -/
theorem C9_counterexample :
    (handleWriteRequest [] "c" 513 [1]).logs = [] ∧
      (handleWriteRequest [] "c" 513 [1]).response = .invalidOffset := by
  decide

/-- C9 (amended): every read request, and every write request accepted by
the offset check, emits exactly one `Received` log event whose message
contains the numeric offset; an accepted write's payload is rendered in the
message as space-separated hex pairs; an empty read response renders as the
`(empty)` placeholder, but an empty write payload renders as the empty
string, and a rejected write emits no log event. -/
theorem C9_request_logs :
    (∀ (shared : List Nat) (u : String) (o : Nat),
      (handleReadRequest shared u o).logs.length = 1 ∧
      ∀ l ∈ (handleReadRequest shared u o).logs,
        l.direction = .received ∧
        List.IsInfix (toString o).data l.message.data ∧
        ((handleReadRequest shared u o).value = [] →
          List.IsInfix "(empty)".data l.message.data)) ∧
    (∀ (shared : List Nat) (u : String) (o : Nat) (p : List Nat),
      o + p.length ≤ 512 →
      (handleWriteRequest shared u o p).logs.length = 1 ∧
      ∀ l ∈ (handleWriteRequest shared u o p).logs,
        l.direction = .received ∧
        List.IsInfix (toString o).data l.message.data ∧
        List.IsInfix (bytes_to_hex p).data l.message.data ∧
        (p = [] → l.message.data =
          ("Write request on " ++ u ++ " (offset: " ++ toString o ++ "): ").data)) ∧
    (∀ (shared : List Nat) (u : String) (o : Nat) (p : List Nat),
      512 < o ∨ 512 < o + p.length →
      (handleWriteRequest shared u o p).logs = []) := by
  refine ⟨?_, ?_, ?_⟩
  · intro shared u o
    refine ⟨rfl, ?_⟩
    intro l hl
    have hl' : l = ⟨.received,
        "Read request on " ++ u ++ " (offset: " ++ toString o ++
          "), responding: " ++
          (if bytes_to_hex (if shared.length ≤ min o shared.length then []
            else shared.drop (min o shared.length)) = "" then "(empty)"
           else bytes_to_hex (if shared.length ≤ min o shared.length then []
            else shared.drop (min o shared.length)))⟩ :=
      List.mem_singleton.mp hl
    subst hl'
    refine ⟨rfl, ?_, ?_⟩
    · refine ⟨("Read request on " ++ u ++ " (offset: ").data,
        (("), responding: " ++
          (if bytes_to_hex (if shared.length ≤ min o shared.length then []
            else shared.drop (min o shared.length)) = "" then "(empty)"
           else bytes_to_hex (if shared.length ≤ min o shared.length then []
            else shared.drop (min o shared.length)))).data), ?_⟩
      simp [String.data_append]
    · intro hv
      have hv' : (if shared.length ≤ min o shared.length then []
          else shared.drop (min o shared.length)) = ([] : List Nat) := hv
      rw [hv']
      have hhex : bytes_to_hex ([] : List Nat) = "" := rfl
      rw [hhex, if_pos rfl]
      refine ⟨("Read request on " ++ u ++ " (offset: " ++ toString o ++
        "), responding: ").data, [], ?_⟩
      simp [String.data_append]
  · intro shared u o p hacc
    have hcnot : ¬ (MAX_CHARACTERISTIC_SIZE < o ∨
        MAX_CHARACTERISTIC_SIZE < o + p.length) := by
      simp only [MAX_CHARACTERISTIC_SIZE]
      omega
    simp only [handleWriteRequest, if_neg hcnot]
    refine ⟨rfl, ?_⟩
    intro l hl
    have hl' : l = ⟨.received,
        "Write request on " ++ u ++ " (offset: " ++ toString o ++ "): " ++
          bytes_to_hex p⟩ :=
      List.mem_singleton.mp hl
    subst hl'
    refine ⟨rfl, ?_, ?_, ?_⟩
    · exact ⟨("Write request on " ++ u ++ " (offset: ").data,
        ("): " ++ bytes_to_hex p).data, by simp [String.data_append]⟩
    · exact ⟨("Write request on " ++ u ++ " (offset: " ++ toString o ++
        "): ").data, [], by simp [String.data_append]⟩
    · intro hp
      subst hp
      show ((("Write request on " ++ u ++ " (offset: " ++ toString o ++
        "): ") ++ bytes_to_hex []).data) = _
      have hhex : bytes_to_hex ([] : List Nat) = "" := rfl
      rw [hhex]
      simp [String.data_append]
  · intro shared u o p hc
    have hcond : MAX_CHARACTERISTIC_SIZE < o ∨
        MAX_CHARACTERISTIC_SIZE < o + p.length := by
      simp only [MAX_CHARACTERISTIC_SIZE]
      omega
    simp only [handleWriteRequest, if_pos hcond]

/-- C9 (witness): the theorem applied to a concrete read and a concrete
accepted and rejected write. -/
theorem C9_witness :
    (handleReadRequest [] "c" 0).logs.length = 1 ∧
      (handleWriteRequest [] "c" 0 [1]).logs.length = 1 ∧
      (handleWriteRequest [] "c" 600 [1]).logs = [] :=
  ⟨(C9_request_logs.1 [] "c" 0).1,
   (C9_request_logs.2.1 [] "c" 0 [1] (by decide)).1,
   C9_request_logs.2.2 [] "c" 600 [1] (by decide)⟩

/-! # C5: characteristic value cache -/

/-- The eviction loop leaves a cache within the bound untouched. -/
theorem evictLoop_noop (values : List (Nat × List Nat)) (order : List Nat)
    (h : values.length ≤ MAX_CHAR_VALUES) : evictLoop values order = (values, order) := by
  cases order with
  | nil => rfl
  | cons oldest rest =>
    simp only [evictLoop, if_neg (by omega : ¬ MAX_CHAR_VALUES < values.length)]

/-- One iteration of the eviction loop while over the bound. -/
theorem evictLoop_step (values : List (Nat × List Nat)) (oldest : Nat)
    (rest : List Nat) (h : MAX_CHAR_VALUES < values.length) :
    evictLoop values (oldest :: rest) = evictLoop (mapRemove values oldest) rest := by
  simp only [evictLoop, if_pos h]

/-- Under well-formedness the ledger and the value map have the same
length. -/
theorem cacheWf_length_eq (s : CacheState) (hwf : cacheWf s) :
    s.order.length = s.charValues.length := by
  rcases hwf with ⟨hnk, hno, hko, hok⟩
  have hperm : List.Perm (s.charValues.map Prod.fst) s.order :=
    (List.perm_ext_iff_of_nodup hnk hno).mpr
      (fun k => ⟨fun hk => hko hk, fun hk => hok hk⟩)
  have := hperm.length_eq
  simpa [List.length_map] using this.symm

/-- C5: from any well-formed cache within the bound, an insert keeps the
cache within `MAX_CHAR_VALUES = 100`; inserting an already-present uuid does
not grow the cache and moves it to the newest ledger position; and inserting
values for the 101 distinct uuids `1..101` into the empty cache leaves `1`
absent and `101` present with its inserted value. -/
theorem C5_cache_insert (s : CacheState) (u : Nat) (v : List Nat)
    (hwf : cacheWf s) (hlen : s.charValues.length ≤ 100) :
    ((insert_char_value s u v).charValues.length ≤ 100 ∧
      (mapContains s.charValues u = true →
        (insert_char_value s u v).charValues.length = s.charValues.length ∧
        (insert_char_value s u v).order.getLast? = some u)) ∧
    (mapContains cacheScenario.charValues 1 = false ∧
      mapLookup cacheScenario.charValues 101 = some [101]) := by
  refine ⟨?_, by decide, by decide⟩
  by_cases hcon : mapContains s.charValues u = true
  · have hval1 : mapInsert s.charValues u v =
        s.charValues.map (fun p => if p.1 = u then (u, v) else p) := by
      simp only [mapInsert, if_pos hcon]
    have hlen1 : (mapInsert s.charValues u v).length = s.charValues.length := by
      rw [hval1, List.length_map]
    have hnoop := evictLoop_noop (mapInsert s.charValues u v)
      ((s.order.filter (fun x => x ≠ u)) ++ [u])
      (by simp only [MAX_CHAR_VALUES]; omega)
    have hres : insert_char_value s u v =
        ⟨mapInsert s.charValues u v, (s.order.filter (fun x => x ≠ u)) ++ [u]⟩ := by
      simp only [insert_char_value, if_pos hcon, hnoop]
    rw [hres]
    refine ⟨?_, fun _ => ⟨?_, ?_⟩⟩
    · show (mapInsert s.charValues u v).length ≤ 100
      omega
    · show (mapInsert s.charValues u v).length = s.charValues.length
      exact hlen1
    · exact List.getLast?_concat _
  · have hval1 : mapInsert s.charValues u v = s.charValues ++ [(u, v)] := by
      simp only [mapInsert, hcon, if_neg, Bool.false_eq_true, if_false]
    have hlen1 : (mapInsert s.charValues u v).length = s.charValues.length + 1 := by
      rw [hval1]
      simp
    refine ⟨?_, fun hc => absurd hc hcon⟩
    by_cases hfull : s.charValues.length + 1 ≤ 100
    · have hnoop := evictLoop_noop (mapInsert s.charValues u v)
        (s.order ++ [u]) (by simp only [MAX_CHAR_VALUES]; omega)
      have hres : insert_char_value s u v =
          ⟨mapInsert s.charValues u v, s.order ++ [u]⟩ := by
        simp only [insert_char_value, hcon, Bool.false_eq_true, if_false, hnoop]
      rw [hres]
      show (mapInsert s.charValues u v).length ≤ 100
      omega
    · have hlen100 : s.charValues.length = 100 := by omega
      have holen : s.order.length = 100 := by
        rw [cacheWf_length_eq s hwf, hlen100]
      rcases horder : s.order with _ | ⟨o1, rest⟩
      · rw [horder] at holen
        simp at holen
      · have ho1mem : o1 ∈ s.charValues.map Prod.fst :=
          hwf.2.2.2 (by rw [horder]; exact List.mem_cons_self o1 rest)
        rcases List.mem_map.mp ho1mem with ⟨pr, hprmem, hprfst⟩
        have hprmem1 : pr ∈ mapInsert s.charValues u v := by
          rw [hval1]
          exact List.mem_append_left _ hprmem
        have hrem : (mapRemove (mapInsert s.charValues u v) o1).length + 1 =
            (mapInsert s.charValues u v).length :=
          List.length_eraseP_add_one hprmem1 (by simp [hprfst])
        have hres : insert_char_value s u v =
            ⟨(evictLoop (mapInsert s.charValues u v) (s.order ++ [u])).1,
             (evictLoop (mapInsert s.charValues u v) (s.order ++ [u])).2⟩ := by
          simp only [insert_char_value, hcon, Bool.false_eq_true, if_false]
        have hloop : evictLoop (mapInsert s.charValues u v) (s.order ++ [u]) =
            (mapRemove (mapInsert s.charValues u v) o1, rest ++ [u]) := by
          rw [horder, List.cons_append,
            evictLoop_step _ _ _ (by simp only [MAX_CHAR_VALUES]; omega),
            evictLoop_noop _ _ (by simp only [MAX_CHAR_VALUES]; omega)]
        rw [hres, hloop]
        show (mapRemove (mapInsert s.charValues u v) o1).length ≤ 100
        omega

/-- C5 (witness): the theorem applied to a one-entry cache re-inserting its
own uuid. -/
theorem C5_witness :
    (insert_char_value ⟨[(5, [1])], [5]⟩ 5 [2]).charValues.length = 1 ∧
      (insert_char_value ⟨[(5, [1])], [5]⟩ 5 [2]).order.getLast? = some 5 :=
  ((C5_cache_insert ⟨[(5, [1])], [5]⟩ 5 [2]
    (by unfold cacheWf; exact ⟨by decide, by decide, by decide, by decide⟩)
    (by decide)).1.2 (by decide))

/-! # C4: device registry bound and connected-device protection -/

/-- Updating a repeat discovery in place does not change the id column. -/
theorem updateFirstMatch_ids : ∀ (l : List Device) (d : Device),
    (updateFirstMatch l d).map Device.id = l.map Device.id := by
  intro l d
  induction l with
  | nil => rfl
  | cons x rest ih =>
    by_cases hx : x.id = d.id
    · simp [updateFirstMatch, hx]
    · simp [updateFirstMatch, hx, ih]

/-- The trailing selection default touches neither the devices nor the
connection. -/
theorem applyDiscovery_fields (s : DevState) (d : Device) :
    (applyDiscovery s d).devices = (applyDiscoveryMain s d).devices ∧
    (applyDiscovery s d).connected = (applyDiscoveryMain s d).connected := by
  unfold applyDiscovery
  split_ifs <;> exact ⟨rfl, rfl⟩

/-- Shape of the main body in the evicting push branch. -/
theorem applyDiscoveryMain_evict (s : DevState) (d : Device)
    (hany : ¬ s.devices.any (fun x => x.id = d.id) = true)
    (hover : MAX_DEVICES < (s.devices ++ [d]).length) :
    (applyDiscoveryMain s d).devices =
      (evictIdxs (s.devices ++ [d]) s.connected
          ((s.devices ++ [d]).length - MAX_DEVICES)).reverse.foldl
        (fun acc i => acc.eraseIdx i) (s.devices ++ [d]) := by
  simp only [applyDiscoveryMain, Bool.not_eq_true] at *
  rw [if_neg (by simp [hany]), if_pos hover]

/-- Shape of the main body in the non-evicting push branch. -/
theorem applyDiscoveryMain_push (s : DevState) (d : Device)
    (hany : ¬ s.devices.any (fun x => x.id = d.id) = true)
    (hover : ¬ MAX_DEVICES < (s.devices ++ [d]).length) :
    applyDiscoveryMain s d = { s with devices := s.devices ++ [d] } := by
  simp only [applyDiscoveryMain, Bool.not_eq_true] at *
  rw [if_neg (by simp [hany]), if_neg hover]

/-- Shape of the main body in the update branch. -/
theorem applyDiscoveryMain_update (s : DevState) (d : Device)
    (hany : s.devices.any (fun x => x.id = d.id) = true) :
    applyDiscoveryMain s d = { s with devices := updateFirstMatch s.devices d } := by
  simp only [applyDiscoveryMain]
  rw [if_pos hany]

/-- The main body never changes the connection. -/
theorem applyDiscoveryMain_connected (s : DevState) (d : Device) :
    (applyDiscoveryMain s d).connected = s.connected := by
  by_cases hany : s.devices.any (fun x => x.id = d.id) = true
  · rw [applyDiscoveryMain_update s d hany]
  · by_cases hover : MAX_DEVICES < (s.devices ++ [d]).length
    · simp only [applyDiscoveryMain, Bool.not_eq_true] at *
      rw [if_neg (by simp [hany]), if_pos hover]
    · rw [applyDiscoveryMain_push s d hany hover]

/-- One discovery event preserves the registry invariant, and the connected
device, when registered, is never removed. -/
theorem applyDiscoveryMain_step (s : DevState) (d : Device) (hwf : devWf s) :
    devWf (applyDiscoveryMain s d) ∧
    ∀ cid, s.connected = some cid → cid ∈ deviceIds s →
      cid ∈ deviceIds (applyDiscoveryMain s d) := by
  rcases hwf with ⟨hnd, hbound⟩
  have hconn := applyDiscoveryMain_connected s d
  by_cases hany : s.devices.any (fun x => x.id = d.id) = true
  · rw [applyDiscoveryMain_update s d hany]
    have hids : (updateFirstMatch s.devices d).map Device.id =
        s.devices.map Device.id := updateFirstMatch_ids s.devices d
    refine ⟨⟨?_, ?_⟩, ?_⟩
    · show ((updateFirstMatch s.devices d).map Device.id).Nodup
      rw [hids]
      exact hnd
    · show (updateFirstMatch s.devices d).length ≤ _
      have hl : (updateFirstMatch s.devices d).length = s.devices.length := by
        have := congrArg List.length hids
        simpa [List.length_map] using this
      rw [hl]
      exact hbound
    · intro cid hc hm
      show cid ∈ (updateFirstMatch s.devices d).map Device.id
      rw [hids]
      exact hm
  · have hnotmem : d.id ∉ deviceIds s := by
      intro hmem
      rcases List.mem_map.mp hmem with ⟨x, hx, hxid⟩
      exact hany (List.any_eq_true.mpr ⟨x, hx, by simp [hxid]⟩)
    have hids1 : (s.devices ++ [d]).map Device.id = deviceIds s ++ [d.id] := by
      simp [deviceIds]
    have hnd1 : ((s.devices ++ [d]).map Device.id).Nodup := by
      rw [hids1]
      simp [List.nodup_append, hnd, hnotmem]
    have hlen1 : (s.devices ++ [d]).length = s.devices.length + 1 := by simp
    by_cases hover : MAX_DEVICES < (s.devices ++ [d]).length
    · have hdev := applyDiscoveryMain_evict s d hany hover
      rcases hcs : s.connected with _ | cid0
      · -- no connected device: the bound is 500, index 0 is evicted
        rw [hcs] at hbound
        have hb2 : s.devices.length ≤ MAX_DEVICES := hbound
        have hn1 : (s.devices ++ [d]).length = 501 := by
          simp only [MAX_DEVICES] at hover hb2 ⊢
          omega
        have hidx : evictIdxs (s.devices ++ [d]) s.connected
            ((s.devices ++ [d]).length - MAX_DEVICES) = [0] := by
          rw [hcs, hn1]
          simp [evictIdxs, MAX_DEVICES, List.range_succ]
        rw [hidx] at hdev
        rcases hD : s.devices ++ [d] with _ | ⟨a, t⟩
        · rw [hD] at hn1
          simp at hn1
        · rw [hD] at hdev hn1 hnd1
          simp only [List.reverse_cons, List.reverse_nil, List.nil_append,
            List.foldl_cons, List.foldl_nil, List.eraseIdx_cons_zero] at hdev
          have htsub : t.Sublist (a :: t) := List.sublist_cons_self a t
          refine ⟨⟨?_, ?_⟩, ?_⟩
          · show ((applyDiscoveryMain s d).devices.map Device.id).Nodup
            rw [hdev]
            exact hnd1.sublist (htsub.map Device.id)
          · rw [hconn, hcs, hdev]
            have : t.length = 500 := by simpa using hn1
            simp [MAX_DEVICES, this]
          · intro cid hc
            exact absurd hc (by simp)
      · -- connected device: at most one candidate index is skipped
        rw [hcs] at hbound
        have hb2 : s.devices.length ≤ MAX_DEVICES + 1 := hbound
        have hn1 : (s.devices ++ [d]).length = 501 ∨
            (s.devices ++ [d]).length = 502 := by
          simp only [MAX_DEVICES] at hover hb2 ⊢
          omega
        rcases hn1 with hn1 | hn1
        · -- excess = 1
          rcases hD : s.devices ++ [d] with _ | ⟨a, t⟩
          · rw [hD] at hn1
            simp at hn1
          · have hexc : (s.devices ++ [d]).length - MAX_DEVICES = 1 := by
              rw [hn1]
              simp [MAX_DEVICES]
            rw [hcs, hexc, hD] at hdev
            rw [hD] at hnd1 hn1
            have htlen : t.length = 500 := by simpa using hn1
            by_cases ha : a.id = cid0
            · have hidx : evictIdxs (a :: t) (some cid0) 1 = [] := by
                simp [evictIdxs, List.range_succ, ha]
              rw [hidx] at hdev
              simp only [List.reverse_nil, List.foldl_nil] at hdev
              refine ⟨⟨?_, ?_⟩, ?_⟩
              · show ((applyDiscoveryMain s d).devices.map Device.id).Nodup
                rw [hdev]
                exact hnd1
              · rw [hconn, hcs, hdev]
                simp [MAX_DEVICES, htlen]
              · intro cid hc hm
                cases hc
                show cid0 ∈ (applyDiscoveryMain s d).devices.map Device.id
                rw [hdev, ← hD, hids1]
                exact List.mem_append_left _ hm
            · have hidx : evictIdxs (a :: t) (some cid0) 1 = [0] := by
                simp [evictIdxs, List.range_succ, ha]
              rw [hidx] at hdev
              simp only [List.reverse_cons, List.reverse_nil, List.nil_append,
                List.foldl_cons, List.foldl_nil, List.eraseIdx_cons_zero] at hdev
              refine ⟨⟨?_, ?_⟩, ?_⟩
              · show ((applyDiscoveryMain s d).devices.map Device.id).Nodup
                rw [hdev]
                exact hnd1.sublist ((List.sublist_cons_self a t).map Device.id)
              · rw [hconn, hcs, hdev]
                simp [MAX_DEVICES, htlen]
              · intro cid hc hm
                cases hc
                have hm1 : cid0 ∈ (a :: t).map Device.id := by
                  rw [← hD, hids1]
                  exact List.mem_append_left _ hm
                rw [List.map_cons] at hm1
                show cid0 ∈ (applyDiscoveryMain s d).devices.map Device.id
                rw [hdev]
                rcases List.mem_cons.mp hm1 with hfst | hrest
                · exact absurd hfst.symm ha
                · exact hrest
        · -- excess = 2
          rcases hD : s.devices ++ [d] with _ | ⟨a, t0⟩
          · rw [hD] at hn1
            simp at hn1
          · rcases hT : t0 with _ | ⟨b, t⟩
            · rw [hD, hT] at hn1
              simp at hn1
            · subst hT
              have hexc : (s.devices ++ [d]).length - MAX_DEVICES = 2 := by
                rw [hn1]
                simp [MAX_DEVICES]
              rw [hcs, hexc, hD] at hdev
              rw [hD] at hnd1 hn1
              have hab : a.id ≠ b.id := by
                have h2 := hnd1
                simp only [List.map_cons, List.nodup_cons, List.mem_cons] at h2
                intro h
                exact h2.1 (Or.inl h)
              have htlen : t.length = 500 := by simpa using hn1
              have hsub_at : (a :: t).Sublist (a :: b :: t) :=
                (List.sublist_cons_self b t).cons₂ a
              have hsub_bt : (b :: t).Sublist (a :: b :: t) :=
                List.sublist_cons_self a (b :: t)
              have hsub_t : t.Sublist (a :: b :: t) :=
                (List.sublist_cons_self b t).trans hsub_bt
              by_cases ha : a.id = cid0
              · have hb : ¬ b.id = cid0 := by
                  intro hb
                  exact hab (by rw [ha, hb])
                have hidx : evictIdxs (a :: b :: t) (some cid0) 2 = [1] := by
                  simp [evictIdxs, List.range_succ, ha, hb]
                rw [hidx] at hdev
                simp only [List.reverse_cons, List.reverse_nil, List.nil_append,
                  List.foldl_cons, List.foldl_nil,
                  List.eraseIdx_cons_succ, List.eraseIdx_cons_zero] at hdev
                refine ⟨⟨?_, ?_⟩, ?_⟩
                · show ((applyDiscoveryMain s d).devices.map Device.id).Nodup
                  rw [hdev]
                  exact hnd1.sublist (hsub_at.map Device.id)
                · rw [hconn, hcs, hdev]
                  simp [MAX_DEVICES, htlen]
                · intro cid hc hm
                  cases hc
                  show cid0 ∈ (applyDiscoveryMain s d).devices.map Device.id
                  rw [hdev]
                  exact List.mem_map.mpr ⟨a, List.mem_cons_self a t, ha⟩
              · by_cases hb : b.id = cid0
                · have hidx : evictIdxs (a :: b :: t) (some cid0) 2 = [0] := by
                    simp [evictIdxs, List.range_succ, ha, hb]
                  rw [hidx] at hdev
                  simp only [List.reverse_cons, List.reverse_nil, List.nil_append,
                    List.foldl_cons, List.foldl_nil,
                    List.eraseIdx_cons_zero] at hdev
                  refine ⟨⟨?_, ?_⟩, ?_⟩
                  · show ((applyDiscoveryMain s d).devices.map Device.id).Nodup
                    rw [hdev]
                    exact hnd1.sublist (hsub_bt.map Device.id)
                  · rw [hconn, hcs, hdev]
                    simp [MAX_DEVICES, htlen]
                  · intro cid hc hm
                    cases hc
                    show cid0 ∈ (applyDiscoveryMain s d).devices.map Device.id
                    rw [hdev]
                    exact List.mem_map.mpr ⟨b, List.mem_cons_self b t, hb⟩
                · have hidx : evictIdxs (a :: b :: t) (some cid0) 2 = [0, 1] := by
                    simp [evictIdxs, List.range_succ, ha, hb]
                  rw [hidx] at hdev
                  simp only [List.reverse_cons, List.reverse_nil, List.nil_append,
                    List.foldl_cons, List.foldl_nil,
                    List.eraseIdx_cons_succ, List.eraseIdx_cons_zero] at hdev
                  refine ⟨⟨?_, ?_⟩, ?_⟩
                  · show ((applyDiscoveryMain s d).devices.map Device.id).Nodup
                    rw [hdev]
                    exact hnd1.sublist (hsub_t.map Device.id)
                  · rw [hconn, hcs, hdev]
                    simp [MAX_DEVICES, htlen]
                  · intro cid hc hm
                    cases hc
                    have hm1 : cid0 ∈ (a :: b :: t).map Device.id := by
                      rw [← hD, hids1]
                      exact List.mem_append_left _ hm
                    show cid0 ∈ (applyDiscoveryMain s d).devices.map Device.id
                    rw [hdev]
                    simp only [List.map_cons, List.mem_cons] at hm1
                    rcases hm1 with h | h | h
                    · exact absurd h.symm ha
                    · exact absurd h.symm hb
                    · exact h
    · rw [applyDiscoveryMain_push s d hany hover]
      refine ⟨⟨hnd1, ?_⟩, ?_⟩
      · show (s.devices ++ [d]).length ≤ _
        rcases s.connected with _ | cid0 <;>
          simp only [MAX_DEVICES] at hover ⊢ <;> omega
      · intro cid hc hm
        show cid ∈ (s.devices ++ [d]).map Device.id
        rw [hids1]
        exact List.mem_append_left _ hm

/-- One full discovery event (body plus selection default) preserves the
registry invariant and the registered connected device. -/
theorem applyDiscovery_step (s : DevState) (d : Device) (hwf : devWf s) :
    devWf (applyDiscovery s d) ∧
    (applyDiscovery s d).connected = s.connected ∧
    ∀ cid, s.connected = some cid → cid ∈ deviceIds s →
      cid ∈ deviceIds (applyDiscovery s d) := by
  have hf := applyDiscovery_fields s d
  have hm := applyDiscoveryMain_step s d hwf
  have hconn := applyDiscoveryMain_connected s d
  refine ⟨⟨?_, ?_⟩, ?_, ?_⟩
  · show ((applyDiscovery s d).devices.map Device.id).Nodup
    rw [hf.1]
    exact hm.1.1
  · show (applyDiscovery s d).devices.length ≤ _
    rw [hf.1, hf.2, hconn]
    have := hm.1.2
    rw [hconn] at this
    exact this
  · rw [hf.2, hconn]
  · intro cid hc hmem
    show cid ∈ (applyDiscovery s d).devices.map Device.id
    rw [hf.1]
    exact hm.2 cid hc hmem

/-- C4 (counterexample): with the registry at exactly `MAX_DEVICES = 500`
well-formed entries and the connected device sitting at index 0 (the oldest
slot), one further discovery with a fresh id pushes the registry to 501
records — the claimed bound `≤ 500` fails, because the eviction pass only
considers the first `excess` indices and skips the connected device without
trying a replacement candidate. -/
theorem C4_counterexample :
    (deviceIds devCexState).Nodup ∧
      devCexState.devices.length = 500 ∧
      devCexState.connected = some 0 ∧
      (applyDiscovery devCexState ⟨500, 0⟩).devices.length = 501 := by
  have hids : deviceIds devCexState = List.range 500 := by
    show ((List.range 500).map (fun i => (⟨i, 0⟩ : Device))).map Device.id = _
    rw [List.map_map]
    have hcomp : (Device.id ∘ fun i => (⟨i, 0⟩ : Device)) = id := rfl
    rw [hcomp, List.map_id]
  have hany : ¬ devCexState.devices.any
      (fun x => x.id = (⟨500, 0⟩ : Device).id) = true := by
    simp only [devCexState, List.any_eq_true, List.mem_map, List.mem_range]
    rintro ⟨x, ⟨i, hi, rfl⟩, hx⟩
    simp only [decide_eq_true_eq] at hx
    have h5 : i = 500 := hx
    omega
  have hover : MAX_DEVICES <
      (devCexState.devices ++ [(⟨500, 0⟩ : Device)]).length := by
    simp only [devCexState, MAX_DEVICES, List.length_append, List.length_map,
      List.length_range, List.length_cons, List.length_nil]
    omega
  have hidx : evictIdxs (devCexState.devices ++ [(⟨500, 0⟩ : Device)])
      devCexState.connected
      ((devCexState.devices ++ [(⟨500, 0⟩ : Device)]).length - MAX_DEVICES) =
      [] := rfl
  have hmain : (applyDiscoveryMain devCexState ⟨500, 0⟩).devices =
      devCexState.devices ++ [⟨500, 0⟩] := by
    rw [applyDiscoveryMain_evict devCexState ⟨500, 0⟩ hany hover, hidx]
    rfl
  have hlen : (applyDiscovery devCexState ⟨500, 0⟩).devices.length = 501 := by
    rw [(applyDiscovery_fields devCexState ⟨500, 0⟩).1, hmain]
    simp only [devCexState, List.length_append, List.length_map,
      List.length_range, List.length_cons, List.length_nil]
  refine ⟨?_, ?_, rfl, hlen⟩
  · rw [hids]
    exact List.nodup_range 500
  · simp only [devCexState, List.length_map, List.length_range]

/-- C4 (amended): over every sequence of discovery events applied to a
well-formed session state, the registry keeps at most `MAX_DEVICES` records
while no device is connected and at most `MAX_DEVICES + 1` records while one
is connected (the one-slot overshoot happens exactly when the connected
device occupies an eviction-candidate slot), and the id of the
currently-connected device, when registered, is never removed. -/
theorem C4_registry_bound (s : DevState) (ds : List Device) (hwf : devWf s) :
    devWf (ds.foldl applyDiscovery s) ∧
    (ds.foldl applyDiscovery s).connected = s.connected ∧
    ∀ cid, s.connected = some cid → cid ∈ deviceIds s →
      cid ∈ deviceIds (ds.foldl applyDiscovery s) := by
  induction ds generalizing s with
  | nil => exact ⟨hwf, rfl, fun cid hc hm => hm⟩
  | cons d rest ih =>
    have hstep := applyDiscovery_step s d hwf
    have hrest := ih (applyDiscovery s d) hstep.1
    refine ⟨hrest.1, ?_, ?_⟩
    · rw [List.foldl_cons, hrest.2.1, hstep.2.1]
    · intro cid hc hmem
      rw [List.foldl_cons]
      exact hrest.2.2 cid (by rw [hstep.2.1]; exact hc)
        (hstep.2.2 cid hc hmem)

/-- C4 (witness): the theorem applied to one fresh discovery on a one-device
registry with that device connected. -/
theorem C4_witness :
    devWf (([⟨2, 0⟩] : List Device).foldl applyDiscovery
      ⟨[⟨1, 0⟩], some 1, some 0⟩) ∧
    (([⟨2, 0⟩] : List Device).foldl applyDiscovery
      ⟨[⟨1, 0⟩], some 1, some 0⟩).connected = some 1 ∧
    1 ∈ deviceIds (([⟨2, 0⟩] : List Device).foldl applyDiscovery
      ⟨[⟨1, 0⟩], some 1, some 0⟩) := by
  have h := C4_registry_bound ⟨[⟨1, 0⟩], some 1, some 0⟩ [⟨2, 0⟩]
    (by unfold devWf; exact ⟨by decide, by decide⟩)
  exact ⟨h.1, h.2.1, h.2.2 1 rfl (by decide)⟩

/-! # C8: input buffer and cursor -/

/-- Every code point occupies at least one byte. -/
theorem utf8Size_pos (c : Char) : 1 ≤ utf8Size c := by
  unfold utf8Size
  split_ifs <;> omega

/-- Every code point occupies at most four bytes. -/
theorem utf8Size_le_four (c : Char) : utf8Size c ≤ 4 := by
  unfold utf8Size
  split_ifs <;> omega

/-- Byte length of a cons. -/
theorem utf8Len_cons (c : Char) (t : List Char) :
    utf8Len (c :: t) = utf8Size c + utf8Len t := by
  simp [utf8Len]

/-- Byte length of an append. -/
theorem utf8Len_append (a b : List Char) :
    utf8Len (a ++ b) = utf8Len a + utf8Len b := by
  simp [utf8Len]

/-- Byte length of a repeated one-byte character. -/
theorem utf8Len_replicate (n : Nat) (c : Char) :
    utf8Len (List.replicate n c) = n * utf8Size c := by
  simp [utf8Len, List.map_replicate, List.sum_replicate]

/-- Byte length of appending one character. -/
theorem utf8Len_concat (pre : List Char) (c : Char) :
    utf8Len (pre ++ [c]) = utf8Len pre + utf8Size c := by
  rw [utf8Len_append, utf8Len_cons]
  simp [utf8Len]

/-- Splitting at the byte length of a character-aligned front piece
succeeds and recovers the decomposition. -/
theorem splitAtByte_decomp : ∀ (pre suf : List Char),
    splitAtByte (pre ++ suf) (utf8Len pre) = (pre, suf, true) := by
  intro pre
  induction pre with
  | nil =>
    intro suf
    rw [List.nil_append, show utf8Len [] = 0 from rfl, splitAtByte.eq_def,
      if_pos rfl]
  | cons c t ih =>
    intro suf
    have hsz := utf8Size_pos c
    rw [utf8Len_cons, List.cons_append]
    rw [splitAtByte.eq_def]
    rw [if_neg (by omega : ¬ utf8Size c + utf8Len t = 0)]
    simp only
    rw [if_neg (by omega : ¬ utf8Size c + utf8Len t < utf8Size c)]
    rw [show utf8Size c + utf8Len t - utf8Size c = utf8Len t by omega, ih]

/-- The cursor invariant together with the reachable length bound. -/
def inputInvFull (s : InputState) : Prop :=
  (∃ pre suf, s.buffer = pre ++ suf ∧ s.cursor = utf8Len pre) ∧
    utf8Len s.buffer ≤ 16387

/-- An insertion attempted on a full buffer is rejected with no change. -/
theorem insertChar_reject (c : Char) (s : InputState)
    (h : MAX_INPUT_LEN ≤ utf8Len s.buffer) : insertChar c s = some s := by
  simp [insertChar, if_pos h]

/-- One input operation on an invariant-satisfying state never panics and
preserves the invariant. -/
theorem applyOp_step (op : InputOp) (s : InputState) (h : inputInvFull s) :
    ∃ s2, applyOp op s = some s2 ∧ inputInvFull s2 := by
  rcases h with ⟨⟨pre, suf, hb, hc⟩, hlen⟩
  cases op with
  | ins c =>
    by_cases hful : MAX_INPUT_LEN ≤ utf8Len s.buffer
    · exact ⟨s, by simp [applyOp, insertChar, if_pos hful],
        ⟨pre, suf, hb, hc⟩, hlen⟩
    · refine ⟨⟨pre ++ c :: suf, s.cursor + utf8Size c⟩, ?_, ?_, ?_⟩
      · show insertChar c s = _
        rw [insertChar, if_neg hful, hb, hc, splitAtByte_decomp]
      · exact ⟨pre ++ [c], suf, by simp, by rw [hc, utf8Len_concat]⟩
      · show utf8Len (pre ++ c :: suf) ≤ 16387
        have h4 := utf8Size_le_four c
        have : utf8Len (pre ++ c :: suf) =
            utf8Len s.buffer + utf8Size c := by
          rw [hb, utf8Len_append, utf8Len_append, utf8Len_cons]
          omega
        simp only [MAX_INPUT_LEN] at hful
        omega
  | del =>
    by_cases hc0 : s.cursor = 0
    · exact ⟨s, by simp [applyOp, deleteChar, if_pos hc0],
        ⟨pre, suf, hb, hc⟩, hlen⟩
    · rcases List.eq_nil_or_concat pre with rfl | ⟨pre0, c0, rfl⟩
      · exact absurd (by rw [hc]; rfl) hc0
      · simp only [List.concat_eq_append] at hb hc
        have hlast : lastCharSize (pre0 ++ [c0]) = utf8Size c0 := by
          simp [lastCharSize, List.getLast?_concat]
        have hplen : utf8Len (pre0 ++ [c0]) = utf8Len pre0 + utf8Size c0 :=
          utf8Len_concat pre0 c0
        have hbb : s.buffer = pre0 ++ (c0 :: suf) := by
          rw [hb, List.append_assoc]
          rfl
        refine ⟨⟨pre0 ++ suf, utf8Len pre0⟩, ?_, ⟨pre0, suf, rfl, rfl⟩, ?_⟩
        · show deleteChar s = _
          rw [deleteChar, if_neg hc0, hb, hc, splitAtByte_decomp]
          simp only [hlast]
          rw [show utf8Len (pre0 ++ [c0]) - utf8Size c0 = utf8Len pre0 by
            rw [hplen]; omega]
          rw [removeAtByte, List.append_assoc, List.singleton_append,
            splitAtByte_decomp]
          rfl
        · show utf8Len (pre0 ++ suf) ≤ 16387
          have h1 : utf8Len s.buffer =
              utf8Len (pre0 ++ suf) + utf8Size c0 := by
            rw [hbb, utf8Len_append, utf8Len_append, utf8Len_cons]
            omega
          omega
  | left =>
    by_cases hc0 : s.cursor = 0
    · exact ⟨s, by simp [applyOp, cursorLeft, if_pos hc0],
        ⟨pre, suf, hb, hc⟩, hlen⟩
    · rcases List.eq_nil_or_concat pre with rfl | ⟨pre0, c0, rfl⟩
      · exact absurd (by rw [hc]; rfl) hc0
      · simp only [List.concat_eq_append] at hb hc
        have hlast : lastCharSize (pre0 ++ [c0]) = utf8Size c0 := by
          simp [lastCharSize, List.getLast?_concat]
        have hplen : utf8Len (pre0 ++ [c0]) = utf8Len pre0 + utf8Size c0 :=
          utf8Len_concat pre0 c0
        have hbb : s.buffer = pre0 ++ (c0 :: suf) := by
          rw [hb, List.append_assoc]
          rfl
        refine ⟨⟨s.buffer, utf8Len pre0⟩, ?_, ⟨pre0, c0 :: suf, hbb, rfl⟩, hlen⟩
        show cursorLeft s = _
        rw [cursorLeft, if_neg hc0, hb, hc, splitAtByte_decomp]
        simp only [hlast]
        rw [show utf8Len (pre0 ++ [c0]) - utf8Size c0 = utf8Len pre0 by
          rw [hplen]; omega]
  | right =>
    by_cases hlt : s.cursor < utf8Len s.buffer
    · rcases hsuf : suf with _ | ⟨c, suf2⟩
      · rw [hsuf] at hb
        rw [hb, List.append_nil] at hlt
        rw [hc] at hlt
        omega
      · refine ⟨⟨s.buffer, s.cursor + utf8Size c⟩, ?_,
          ⟨pre ++ [c], suf2, by rw [hb, hsuf]; simp, by
            rw [hc, utf8Len_concat]⟩, hlen⟩
        show cursorRight s = _
        rw [cursorRight.eq_def, if_pos hlt, hb, hc, hsuf, splitAtByte_decomp]
    · exact ⟨s, by
        show cursorRight s = _
        rw [cursorRight.eq_def, if_neg hlt], ⟨pre, suf, hb, hc⟩, hlen⟩

/-- A whole operation sequence on an invariant-satisfying state never panics
and preserves the invariant. -/
theorem applyOps_inv : ∀ (ops : List InputOp) (s : InputState),
    inputInvFull s → ∃ s2, applyOps ops s = some s2 ∧ inputInvFull s2 := by
  intro ops
  induction ops with
  | nil => exact fun s h => ⟨s, rfl, h⟩
  | cons op rest ih =>
    intro s h
    rcases applyOp_step op s h with ⟨s1, hs1, h1⟩
    rcases ih s1 h1 with ⟨s2, hs2, h2⟩
    exact ⟨s2, by simp [applyOps, hs1, hs2], h2⟩

/-- Splitting an operation sequence. -/
theorem applyOps_append : ∀ (l1 l2 : List InputOp) (s : InputState),
    applyOps (l1 ++ l2) s = (applyOps l1 s).bind (applyOps l2) := by
  intro l1
  induction l1 with
  | nil => intro l2 s; rfl
  | cons op rest ih =>
    intro l2 s
    show (applyOp op s).bind _ = ((applyOp op s).bind _).bind _
    cases applyOp op s with
    | none => rfl
    | some s1 => exact ih l2 s1

/-- Repeatedly inserting the one-byte character `a` while under the cap. -/
theorem applyOps_replicate_a : ∀ (n k : Nat), k + n ≤ 16384 →
    applyOps (List.replicate n (InputOp.ins 'a')) ⟨List.replicate k 'a', k⟩ =
      some ⟨List.replicate (k + n) 'a', k + n⟩ := by
  intro n
  induction n with
  | zero => intro k _; simp [applyOps]
  | succ n ih =>
    intro k hk
    rw [List.replicate_succ]
    have hlenk : utf8Len (List.replicate k 'a') = k := by
      rw [utf8Len_replicate]
      simp [show utf8Size 'a' = 1 from rfl]
    have hsplit : splitAtByte (List.replicate k 'a') k =
        (List.replicate k 'a', [], true) := by
      have := splitAtByte_decomp (List.replicate k 'a') []
      rw [List.append_nil, hlenk] at this
      exact this
    have hstep : applyOp (InputOp.ins 'a') ⟨List.replicate k 'a', k⟩ =
        some ⟨List.replicate (k + 1) 'a', k + 1⟩ := by
      show insertChar 'a' _ = _
      rw [insertChar, if_neg (by simp only [MAX_INPUT_LEN]; simp [hlenk]; omega)]
      simp only [hsplit]
      rw [show (List.replicate k 'a' ++ 'a' :: [] : List Char) =
        List.replicate (k + 1) 'a' from (List.replicate_succ' k 'a').symm]
      rfl
    show (applyOp (InputOp.ins 'a') ⟨List.replicate k 'a', k⟩).bind _ = _
    rw [hstep]
    show applyOps _ ⟨List.replicate (k + 1) 'a', k + 1⟩ = _
    rw [ih (k + 1) (by omega)]
    have heq : k + 1 + n = k + (n + 1) := by omega
    rw [heq]

/-- Inserting any character into a buffer of `k` one-byte characters with
the cursor at the end, while under the cap. -/
theorem insertChar_replicate (c : Char) (k : Nat) (hk : k < 16384) :
    insertChar c ⟨List.replicate k 'a', k⟩ =
      some ⟨List.replicate k 'a' ++ c :: [], k + utf8Size c⟩ := by
  have hlenk : utf8Len (List.replicate k 'a') = k := by
    rw [utf8Len_replicate]
    simp [show utf8Size 'a' = 1 from rfl]
  have hsplit : splitAtByte (List.replicate k 'a') k =
      (List.replicate k 'a', [], true) := by
    have := splitAtByte_decomp (List.replicate k 'a') []
    rw [List.append_nil, hlenk] at this
    exact this
  rw [insertChar, if_neg (by simp only [MAX_INPUT_LEN]; rw [hlenk]; omega)]
  simp only [hsplit]

/-- `applyOp` on an insertion is `insertChar`. -/
theorem applyOp_ins (c : Char) (s : InputState) :
    applyOp (InputOp.ins c) s = insertChar c s := rfl

/-- A one-operation sequence. -/
theorem applyOps_singleton (op : InputOp) (s : InputState) :
    applyOps [op] s = applyOp op s := by
  show (applyOp op s).bind (applyOps []) = applyOp op s
  cases applyOp op s <;> rfl

/-- C8 (counterexample): 16383 one-byte insertions followed by one
three-byte insertion are all accepted (the guard only rejects once the byte
length has already reached `MAX_INPUT_LEN`), leaving a buffer of 16386 bytes
— `len(buffer) ≤ MAX_INPUT_LEN = 16384` is violated. -/
theorem C8_counterexample :
    applyOps overfillOps initInput = some ⟨overfillBuf, 16386⟩ ∧
      MAX_INPUT_LEN < utf8Len overfillBuf := by
  have hlen16383 : utf8Len (List.replicate 16383 'a') = 16383 := by
    rw [utf8Len_replicate]
    simp [show utf8Size 'a' = 1 from rfl]
  constructor
  · rw [overfillOps, applyOps_append]
    have h1 := applyOps_replicate_a 16383 0 (by omega)
    rw [show (⟨List.replicate 0 'a', 0⟩ : InputState) = initInput from rfl] at h1
    rw [show (0 + 16383 : Nat) = 16383 from rfl] at h1
    rw [h1]
    have hstep : insertChar '€' ⟨List.replicate 16383 'a', 16383⟩ =
        some ⟨overfillBuf, 16386⟩ := by
      rw [insertChar_replicate '€' 16383 (by omega)]
      rw [overfillBuf, show (16383 + utf8Size '€' : Nat) = 16386 from rfl]
    rw [Option.some_bind, applyOps_singleton, applyOp_ins, hstep]
  · rw [overfillBuf, utf8Len_append, hlen16383, utf8Len_cons]
    simp [MAX_INPUT_LEN, show utf8Size '€' = 3 from rfl, utf8Len]

/-- C8 (amended): every sequence of input operations from the empty buffer
executes without panicking; afterwards the cursor lies on a UTF-8 code-point
boundary and `0 ≤ cursor ≤ len(buffer) ≤ MAX_INPUT_LEN + 3` holds (the bound
is `MAX_INPUT_LEN + 3`, not `MAX_INPUT_LEN`, because a four-byte code point
inserted at length `MAX_INPUT_LEN - 1` overshoots); an insertion attempted
once the buffer's byte length has reached `MAX_INPUT_LEN` is rejected with
buffer and cursor unchanged. -/
theorem C8_input_invariants :
    (∀ ops : List InputOp, ∃ s, applyOps ops initInput = some s ∧
      (splitAtByte s.buffer s.cursor).2.2 = true ∧
      s.cursor ≤ utf8Len s.buffer ∧
      utf8Len s.buffer ≤ MAX_INPUT_LEN + 3) ∧
    (∀ (c : Char) (s : InputState), MAX_INPUT_LEN ≤ utf8Len s.buffer →
      insertChar c s = some s) := by
  constructor
  · intro ops
    have hinit : inputInvFull initInput := ⟨⟨[], [], rfl, rfl⟩, by
      show utf8Len [] ≤ 16387
      simp [utf8Len]⟩
    rcases applyOps_inv ops initInput hinit with
      ⟨s2, hs2, ⟨pre, suf, hb, hc⟩, hlen⟩
    refine ⟨s2, hs2, ?_, ?_, ?_⟩
    · rw [hb, hc, splitAtByte_decomp]
    · rw [hb, hc, utf8Len_append]
      omega
    · show utf8Len s2.buffer ≤ MAX_INPUT_LEN + 3
      simp only [MAX_INPUT_LEN]
      omega
  · exact fun c s h => insertChar_reject c s h

/-- C8 (witness): the invariant theorem applied to a concrete three-step
sequence, and the rejection clause at a concrete full buffer. -/
theorem C8_witness :
    (applyOps [InputOp.ins 'a', InputOp.left, InputOp.del] initInput).isSome =
      true ∧
    insertChar 'x' ⟨List.replicate 16384 'a', 0⟩ =
      some ⟨List.replicate 16384 'a', 0⟩ := by
  constructor
  · rcases C8_input_invariants.1 [InputOp.ins 'a', InputOp.left, InputOp.del]
      with ⟨s, hs, _⟩
    rw [hs]
    rfl
  · refine C8_input_invariants.2 'x' ⟨List.replicate 16384 'a', 0⟩ ?_
    show MAX_INPUT_LEN ≤ utf8Len (List.replicate 16384 'a')
    rw [utf8Len_replicate]
    simp [MAX_INPUT_LEN, show utf8Size 'a' = 1 from rfl]

end Btlescan
